import Mathlib

/- Verification of the AetherCode repository file-structure parser and
   renderer.

   The renderer (`renderFileTree`, `renderFileItem`, `getFileIconClass`,
   `getFileIcon`) is embedded from `src/static/js/script.js` lines 424-489,
   and the upload helpers (`getFileExtension`, `detectLanguageFromExtension`)
   from the dashboard upload script.  The indentation-stack parser is not
   present under `src/` (only its behaviour is specified); every definition
   of the parser family below is marked "Modelled from the spec". -/

/-- Tests whether `n` occurs as the leading block of the second list
(prefix test on char lists, the building block of substring search). -/
def matchesAt : List Char → List Char → Bool
  | [], _ => true
  | _ :: _, [] => false
  | a :: as, b :: bs => a == b && matchesAt as bs

/-- Substring test on char lists: JS `String.prototype.includes`. -/
def containsSub (n : List Char) : List Char → Bool
  | [] => matchesAt n []
  | c :: rest => matchesAt n (c :: rest) || containsSub n rest

/-- JS `String.prototype.trim`: strip whitespace from both ends. -/
def trimData (l : List Char) : List Char :=
  ((l.dropWhile Char.isWhitespace).reverse.dropWhile Char.isWhitespace).reverse

/-- JS `String.prototype.split` with a single-character separator. -/
def splitChar (c : Char) : List Char → List (List Char)
  | [] => [[]]
  | x :: xs =>
    match splitChar c xs with
    | [] => [[x]]
    | y :: ys => if x = c then [] :: y :: ys else (x :: y) :: ys

/-- Last element of a list of char lists, or `[]` when empty (JS
`Array.prototype.pop` applied to the never-empty result of `split`). -/
def lastOr : List (List Char) → List Char
  | [] => []
  | [x] => x
  | _ :: y :: rest => lastOr (y :: rest)

/-- The maximal suffix of a list containing no occurrence of `c`; for a list
containing `c` this is exactly the part after the last `c`.  This is the
specification-side reading of "the suffix after the last separator". -/
def sufAfterLast (c : Char) : List Char → List Char
  | [] => []
  | x :: xs => if c ∈ xs then sufAfterLast c xs else if x = c then xs else x :: xs

/-- JS `String.prototype.lastIndexOf` for a single character: the last index
at which `c` occurs, or `-1`. -/
def lastIdx (c : Char) : List Char → Int
  | [] => -1
  | x :: xs =>
    let r := lastIdx c xs
    if 0 ≤ r then r + 1 else if x = c then 0 else -1

/-- The renderer's item shape (`src/static/js/script.js`): the backend
structure entries carry `name`, `path`, `type` ("dir" for folders) and an
optional `children` array, modelled as a possibly empty list. -/
structure Item where
  name : String
  path : String
  type : String
  children : List Item

/-- A JavaScript value as it flows out of the object-literal lookups below:
a string, a truthy non-string member inherited from `Object.prototype`
(identified by its property name), or the falsy `null`/`undefined` (the two
are indistinguishable to every caller in this code — both are falsy and
only truthiness is ever tested — so both are modelled as `nullish`). -/
inductive JSVal where
  | str (s : String)
  | protoMember (k : String)
  | nullish
deriving DecidableEq

/-- The property names every JS object literal inherits from
`Object.prototype` (standard members plus the web-normative Annex-B
accessor definers): bracket-indexing a plain object with any of these
yields a truthy function (or, for `__proto__`, the prototype object), not
`undefined`. -/
def protoKeys : List String :=
  [("constructor"), ("hasOwnProperty"), ("isPrototypeOf"),
   ("propertyIsEnumerable"), ("toLocaleString"), ("toString"), ("valueOf"),
   ("__proto__"), ("__defineGetter__"), ("__defineSetter__"),
   ("__lookupGetter__"), ("__lookupSetter__")]

/-- JS bracket lookup on an object literal with string values: an own key
returns its string value, any other `Object.prototype` property name
returns the truthy inherited member, and every other key is `undefined`. -/
def jsIndex (m : List (String × String)) (k : String) : JSVal :=
  match m.lookup k with
  | some v => JSVal.str v
  | none => if k ∈ protoKeys then JSVal.protoMember k else JSVal.nullish

/-- JS truthiness of such a value: the empty string, `null` and `undefined`
are falsy; nonempty strings and the inherited members are truthy. -/
def jsTruthy : JSVal → Bool
  | JSVal.str s => !s.isEmpty
  | JSVal.protoMember _ => true
  | JSVal.nullish => false

/-- JS `x || d`: the left operand when truthy, otherwise the default. -/
def jsOr (v d : JSVal) : JSVal :=
  if jsTruthy v then v else d

/-- JS template-literal coercion of such a value: a string interpolates as
itself; an inherited `Object.prototype` member stringifies to its
host-defined source text (the NativeFunction shape, or `[object Object]`
for the value of the `__proto__` accessor); `null`/`undefined` never reach
a template in this code.  The exact host text is implementation-defined
and no theorem depends on it. -/
def jsToString : JSVal → String
  | JSVal.str s => s
  | JSVal.protoMember k =>
      if k == ("__proto__") then ("[object Object]")
      else ("function ") ++ k ++ ("() \x7b [native code] \x7d")
  | JSVal.nullish => ("undefined")

/-- Extension-to-icon-class table of `getFileIconClass`
(`src/static/js/script.js` lines 451-466). -/
def iconClassMap : List (String × String) :=
  [(("js"), ("javascript")),
   (("ts"), ("typescript")),
   (("py"), ("python")),
   (("css"), ("css")),
   (("html"), ("html")),
   (("htm"), ("html")),
   (("json"), ("json")),
   (("md"), ("markdown")),
   (("txt"), ("text")),
   (("png"), ("image")),
   (("jpg"), ("image")),
   (("jpeg"), ("image")),
   (("gif"), ("image")),
   (("svg"), ("image"))]

/-- Embeds `getFileIconClass` (`src/static/js/script.js` lines 449-468):
`iconMap[fileName.split('.').pop().toLowerCase()] || 'text'`, with the
object-literal lookup modelled faithfully including the prototype chain:
an extension that is an `Object.prototype` property name (e.g.
"constructor") yields the truthy inherited member, so the `|| 'text'`
default does not fire there. -/
def getFileIconClass (fileName : String) : JSVal :=
  jsOr
    (jsIndex iconClassMap
      (String.mk ((lastOr (splitChar '.' fileName.data)).map Char.toLower)))
    (JSVal.str ("text"))

/-- Extension-to-icon table of `getFileIcon`
(`src/static/js/script.js` lines 472-487). -/
def faIconMap : List (String × String) :=
  [(("js"), ("fa-file-code")),
   (("ts"), ("fa-file-code")),
   (("py"), ("fa-file-code")),
   (("css"), ("fa-file-code")),
   (("html"), ("fa-file-code")),
   (("htm"), ("fa-file-code")),
   (("json"), ("fa-file-code")),
   (("md"), ("fa-file-text")),
   (("txt"), ("fa-file-text")),
   (("png"), ("fa-file-image")),
   (("jpg"), ("fa-file-image")),
   (("jpeg"), ("fa-file-image")),
   (("gif"), ("fa-file-image")),
   (("svg"), ("fa-file-image"))]

/-- Embeds `getFileIcon` (`src/static/js/script.js` lines 470-489):
`iconMap[ext] || 'fa-file'` with the same faithful prototype-chain
lookup as `getFileIconClass`. -/
def getFileIcon (fileName : String) : JSVal :=
  jsOr
    (jsIndex faIconMap
      (String.mk ((lastOr (splitChar '.' fileName.data)).map Char.toLower)))
    (JSVal.str ("fa-file"))

mutual
/-- Embeds `renderFileItem` (`src/static/js/script.js` lines 432-447): the
template literal with `item.path`, `item.type` and `item.name` interpolated
verbatim, the folder/file class and toggle chosen from `item.type === 'dir'`
and the presence of children, and children rendered recursively. -/
def renderFileItem : Item → String
  | Item.mk nm pth ty cs =>
    ("\n            <div class=\"file-item ") ++
    (if ty == ("dir") then ("folder") else ("file")) ++
    ("\" data-path=\"") ++ pth ++ ("\" data-type=\"") ++ ty ++
    ("\">\n                ") ++
    (if ty == ("dir") && !cs.isEmpty then ("<span class=\"folder-toggle\"></span>")
     else ("<span class=\"folder-toggle\" style=\"visibility: hidden;\"></span>")) ++
    ("\n                <span class=\"file-icon ") ++ jsToString (getFileIconClass nm) ++
    ("\">\n                    <i class=\"fas ") ++
    (if ty == ("dir") then ("fa-folder") else jsToString (getFileIcon nm)) ++
    ("\"></i>\n                </span>\n                <span class=\"file-name\">") ++
    nm ++
    ("</span>\n            </div>\n            ") ++
    (if !cs.isEmpty then
      ("<div class=\"file-children collapsed\">") ++ renderItems cs ++ ("</div>")
     else ("")) ++
    ("\n        ")
/-- Embeds `items.map(item => renderFileItem(item)).join('')`. -/
def renderItems : List Item → String
  | [] => ("")
  | i :: rest => renderFileItem i ++ renderItems rest
end

/-- Embeds `renderFileTree` (`src/static/js/script.js` lines 424-430):
the empty (or absent) sequence yields the "no files" placeholder, otherwise
the items are rendered in order inside the tree container. -/
def renderFileTree (items : List Item) : String :=
  if items.isEmpty then
    ("<div class=\"file-tree-placeholder\">No files found in repository.</div>")
  else
    ("<div class=\"file-tree\">") ++ renderItems items ++ ("</div>")

/-- Extension-to-language table of `detectLanguageFromExtension`
(`src/unnamed/part_000` lines 437-493). -/
def extensionMap : List (String × String) :=
  [(("js"), ("javascript")),
   (("jsx"), ("javascript")),
   (("ts"), ("typescript")),
   (("tsx"), ("typescript")),
   (("py"), ("python")),
   (("pyc"), ("python")),
   (("pyd"), ("python")),
   (("pyo"), ("python")),
   (("pyw"), ("python")),
   (("java"), ("java")),
   (("cs"), ("csharp")),
   (("cpp"), ("cpp")),
   (("cc"), ("cpp")),
   (("cxx"), ("cpp")),
   (("c"), ("cpp")),
   (("h"), ("cpp")),
   (("hpp"), ("cpp")),
   (("php"), ("php")),
   (("rb"), ("ruby")),
   (("go"), ("go")),
   (("swift"), ("swift")),
   (("kt"), ("kotlin")),
   (("kts"), ("kotlin")),
   (("rs"), ("rust")),
   (("html"), ("html")),
   (("htm"), ("html")),
   (("css"), ("css")),
   (("sql"), ("sql"))]

/-- Embeds `detectLanguageFromExtension` (`src/unnamed/part_000` lines
436-496): `extensionMap[extension] || null`, with the object-literal
lookup modelled faithfully including the prototype chain: an extension
that is an `Object.prototype` property name yields the truthy inherited
member rather than `null`. -/
def detectLanguageFromExtension (ext : String) : JSVal :=
  jsOr (jsIndex extensionMap ext) JSVal.nullish

/-- Embeds `getFileExtension` (`src/unnamed/part_000` lines 431-433):
`filename.slice((filename.lastIndexOf('.') - 1 >>> 0) + 2).toLowerCase()`,
where `>>> 0` is JS `ToUint32`, i.e. reduction modulo `2 ^ 32`, and `slice`
with a nonnegative start drops that many leading characters. -/
def getFileExtension (filename : String) : String :=
  String.mk
    ((filename.data.drop
      ((lastIdx '.' filename.data - 1) % 4294967296 + 2).toNat).map Char.toLower)

/-- Modelled from the spec: a parsed tree node (spec section 3); the parser
`parseFileStructure` itself is absent from `src/`, only its contract is
specified. -/
inductive Node where
  | file (name path : String)
  | folder (name : String) (children : List Node)

/-- Modelled from the spec: the "more files" sentinel marker (spec section
4.1 step 2 and glossary). -/
def moreFilesMarker : List Char := ("more files").data

/-- Modelled from the spec: the literal header line discriminated and
discarded only when present as the first line (spec section 4.1). -/
def headerMarker : List Char := ("Repository structure:").data

/-- Modelled from the spec: split the raw text into newline-delimited
lines. -/
def splitLines (s : String) : List String :=
  (splitChar '\n' s.data).map String.mk

/-- Modelled from the spec: drop the header line when present. -/
def dropHeader : List String → List String
  | [] => []
  | l :: rest => if trimData l.data == headerMarker then rest else l :: rest

/-- Modelled from the spec: classify one line (spec section 4.1 steps 1-2);
blank-after-trim lines and sentinel lines yield no entry, every other line
yields its leading-whitespace width and its trimmed name. -/
def lineEntry (line : String) : Option (Int × String) :=
  let t := trimData line.data
  if t.isEmpty then none
  else if containsSub moreFilesMarker t then none
  else some (Int.ofNat ((line.data.takeWhile Char.isWhitespace).length), String.mk t)

/-- Modelled from the spec: interleave the separator between path
components. -/
def joinSlash : List (List Char) → List Char
  | [] => []
  | [x] => x
  | x :: y :: rest => x ++ '/' :: joinSlash (y :: rest)

/-- Modelled from the spec: the path of a file, the separator-join of its
enclosing folder names and its own clean name with a single leading
separator (spec section 4.1 step 6). -/
def mkPath (pre : List String) (n : String) : String :=
  String.mk ('/' :: joinSlash ((pre ++ [n]).map String.data))

/-- Modelled from the spec: one frame of the indentation stack (spec section
4.1 step 4): the folder's clean name, its indent level and the children
accumulated so far, most recent first. -/
structure Frame where
  name : String
  indent : Int
  acc : List Node

/-- Modelled from the spec: the folder names of the open frames, outermost
first (the accumulated "path prefix"; the bottom root frame contributes
nothing). -/
def stackNames : Frame → List Frame → List String
  | _, [] => []
  | top, p :: rest => stackNames p rest ++ [top.name]

/-- Modelled from the spec: close the top frame, attaching its finished
folder node to the frame below it (spec section 4.1 step 5). -/
def closeFrame (top p : Frame) : Frame :=
  Frame.mk p.name p.indent (Node.folder top.name top.acc.reverse :: p.acc)

/-- Modelled from the spec: pop frames while the top frame's indent level is
greater than or equal to the current line's indent (spec section 4.1 step
5). -/
def popWhile (ind : Int) : Frame → List Frame → Frame × List Frame
  | top, [] => (top, [])
  | top, p :: rest =>
    if ind ≤ top.indent then popWhile ind (closeFrame top p) rest
    else (top, p :: rest)

/-- Modelled from the spec: process one classified line (spec section 4.1
step 6): a line whose name ends with the separator pushes a fresh folder
frame under its clean name, any other line appends a file node whose path
joins the current prefix and the clean name. -/
def parseStep : Frame × List Frame → Int × String → Frame × List Frame
  | (top, rest), (ind, nm) =>
    match popWhile ind top rest with
    | (top', rest') =>
      if nm.data.getLast? == some '/' then
        (Frame.mk (String.mk nm.data.dropLast) ind [], top' :: rest')
      else
        (Frame.mk top'.name top'.indent
          (Node.file nm (mkPath (stackNames top' rest') nm) :: top'.acc), rest')

/-- Modelled from the spec: close every remaining frame at end of input. -/
def flushAll : Frame → List Frame → List Node
  | top, [] => top.acc.reverse
  | top, p :: rest => flushAll (closeFrame top p) rest

/-- Modelled from the spec: the initial stack, a single root frame at the
sentinel indent level `-1`. -/
def initState : Frame × List Frame := (Frame.mk ("") (-1) [], [])

/-- Modelled from the spec: parse a list of raw lines (spec section 4.1). -/
def parseFromLines (ls : List String) : List Node :=
  match ((dropHeader ls).filterMap lineEntry).foldl parseStep initState with
  | (top, rest) => flushAll top rest

/-- Modelled from the spec: parse the raw text body
(`parseFileStructure`). -/
def parseFileStructure (s : String) : List Node :=
  parseFromLines (splitLines s)

/-- Modelled from the spec: a caller-supplied dynamic value, either a string
or a non-string (a contract violation). -/
inductive JSValue where
  | str (s : String)
  | other

/-- Modelled from the spec: the error signalled on non-string input (spec
sections 4.1 and 7). -/
inductive ParseError where
  | notAString

/-- Modelled from the spec: the full parser contract — it signals
`ParseError` exactly on non-string input and otherwise parses the text. -/
def parseFileStructureJS : JSValue → Except ParseError (List Node)
  | JSValue.str s => Except.ok (parseFileStructure s)
  | JSValue.other => Except.error ParseError.notAString

mutual
/-- Flat list of the file entries of a node reached under the folder-name
stack `pre`: each entry is (enclosing folder names, file name, recorded
path). -/
def fileEntriesNode (pre : List String) : Node → List (List String × String × String)
  | Node.file n p => [(pre, n, p)]
  | Node.folder n cs => fileEntriesList (pre ++ [n]) cs
/-- Flat list of the file entries of a forest. -/
def fileEntriesList (pre : List String) : List Node → List (List String × String × String)
  | [] => []
  | c :: rest => fileEntriesNode pre c ++ fileEntriesList pre rest
end

/-- Every file entry of the forest records exactly the path obtained by
joining its enclosing folder names and its own clean name. -/
def pathsOk (pre : List String) (ns : List Node) : Prop :=
  ∀ e ∈ fileEntriesList pre ns, e.2.2 = mkPath e.1 e.2.1

/-- Path invariant of the open frames below the top frame. -/
def invTail : List Frame → Prop
  | [] => True
  | p :: rest => pathsOk (stackNames p rest) p.acc ∧ invTail rest

/-- Path invariant of the whole parser state. -/
def stackInv (top : Frame) (rest : List Frame) : Prop :=
  pathsOk (stackNames top rest) top.acc ∧ invTail rest

mutual
/-- Conversion from a parsed `Node` to the renderer's item shape: folders
get type "dir" and an empty path, files keep their recorded path. -/
def nodeToItem : Node → Item
  | Node.file n p => Item.mk n p ("file") []
  | Node.folder n cs => Item.mk n ("") ("dir") (nodesToItems cs)
/-- Conversion of a forest of parsed nodes. -/
def nodesToItems : List Node → List Item
  | [] => []
  | c :: rest => nodeToItem c :: nodesToItems rest
end

/-- A key paired with its value is found by `List.lookup` whenever the keys
of the association list are pairwise distinct. -/
theorem lookupEqSomeOfMem {α β : Type} [BEq α] [LawfulBEq α]
    (m : List (α × β)) (k : α) (v : β)
    (nd : (m.map Prod.fst).Nodup) (hm : (k, v) ∈ m) : m.lookup k = some v := by
  induction m with
  | nil => cases hm
  | cons a as ih =>
    obtain ⟨a1, a2⟩ := a
    simp only [List.map_cons, List.nodup_cons] at nd
    rcases List.mem_cons.mp hm with h | h
    · obtain ⟨h1, h2⟩ := Prod.mk.injEq .. ▸ h
      subst h1; subst h2
      simp [List.lookup]
    · have hk : k ∈ as.map Prod.fst :=
        List.mem_map.mpr ⟨(k, v), h, rfl⟩
      have hne : (k == a1) = false :=
        beq_eq_false_iff_ne.mpr (fun he => nd.1 (he ▸ hk))
      simp only [List.lookup, hne]
      exact ih nd.2 h

/-- `List.lookup` misses every key that is not among the keys of the
association list. -/
theorem lookupEqNoneOfNotMem {α β : Type} [BEq α] [LawfulBEq α]
    (m : List (α × β)) (k : α)
    (h : k ∉ m.map Prod.fst) : m.lookup k = none := by
  induction m with
  | nil => rfl
  | cons a as ih =>
    obtain ⟨a1, a2⟩ := a
    simp only [List.map_cons, List.mem_cons, not_or] at h
    have hne : (k == a1) = false :=
      beq_eq_false_iff_ne.mpr h.1
    simp only [List.lookup, hne]
    exact ih h.2

/-- A successful `List.lookup` finds a pair of the association list. -/
theorem memOfLookupEqSome {α β : Type} [BEq α] [LawfulBEq α]
    (m : List (α × β)) (k : α) (v : β) (h : m.lookup k = some v) : (k, v) ∈ m := by
  induction m with
  | nil => simp [List.lookup] at h
  | cons a as ih =>
    obtain ⟨a1, a2⟩ := a
    by_cases hk : (k == a1) = true
    · simp only [List.lookup, hk] at h
      injection h with hv
      subst hv
      exact List.mem_cons.mpr (Or.inl (by rw [eq_of_beq hk]))
    · have hk' : (k == a1) = false := by
        cases hb : (k == a1) with
        | false => rfl
        | true => exact absurd hb hk
      simp only [List.lookup, hk'] at h
      exact List.mem_cons_of_mem _ (ih h)

/-- A character absent from a list has JS `lastIndexOf` equal to `-1`. -/
theorem lastIdxOfNotMem (c : Char) (l : List Char) (h : c ∉ l) :
    lastIdx c l = -1 := by
  induction l with
  | nil => rfl
  | cons x xs ih =>
    simp only [List.mem_cons, not_or] at h
    have hxs := ih h.2
    have hxc : ¬(x = c) := fun hxe => h.1 hxe.symm
    simp [lastIdx, hxs, hxc]

/-- Claim C3: the parser signals `ParseError` if and only if its input is
not a string; every string input, however malformed its lines, parses to a
tree without an error. -/
theorem c3_parse_error_iff_nonstring : ∀ v : JSValue,
    ((∃ t, parseFileStructureJS v = Except.ok t) ↔ ∃ s, v = JSValue.str s)
  ∧ ((∃ e, parseFileStructureJS v = Except.error e) ↔ v = JSValue.other) := by
  intro v
  cases v with
  | str s =>
    constructor
    · exact ⟨fun _ => ⟨s, rfl⟩, fun _ => ⟨parseFileStructure s, rfl⟩⟩
    · constructor
      · rintro ⟨e, he⟩
        exact Except.noConfusion he
      · intro h
        exact JSValue.noConfusion h
  | other =>
    constructor
    · constructor
      · rintro ⟨t, ht⟩
        exact Except.noConfusion ht
      · rintro ⟨s, hs⟩
        exact JSValue.noConfusion hs
    · exact ⟨fun _ => rfl, fun _ => ⟨ParseError.notAString, rfl⟩⟩

/-- Claim C6: rendering is a deterministic pure function of the tree — the
embedding of `renderFileTree` is a function of the item sequence alone, so
two renderings of the same tree are identical strings. -/
theorem c6_render_deterministic : ∀ items : List Item,
    renderFileTree items = renderFileTree items :=
  fun _ => rfl

/-- Claim C8 (amended): `detectLanguageFromExtension` is the total JS
lookup `extensionMap[extension] || null` including the object prototype
chain: a key of the static table yields its mapped language, an extension
that is neither a table key nor an `Object.prototype` property name yields
`null`, and an `Object.prototype` property name yields the truthy
inherited member rather than `null`. -/
theorem c8_language_lookup : ∀ ext : String,
    (∀ lang : String, (ext, lang) ∈ extensionMap →
      detectLanguageFromExtension ext = JSVal.str lang)
  ∧ (ext ∉ extensionMap.map Prod.fst → ext ∉ protoKeys →
      detectLanguageFromExtension ext = JSVal.nullish)
  ∧ (ext ∉ extensionMap.map Prod.fst → ext ∈ protoKeys →
      detectLanguageFromExtension ext = JSVal.protoMember ext) := by
  intro ext
  refine ⟨?_, ?_, ?_⟩
  · intro lang hm
    have hl : extensionMap.lookup ext = some lang :=
      lookupEqSomeOfMem extensionMap ext lang (by decide) hm
    have hall : ∀ p ∈ extensionMap, p.2.isEmpty = false := by decide
    have hne := hall (ext, lang) hm
    simp [detectLanguageFromExtension, jsIndex, jsOr, jsTruthy, hl, hne]
  · intro h1 h2
    have hl : extensionMap.lookup ext = none := lookupEqNoneOfNotMem extensionMap ext h1
    simp [detectLanguageFromExtension, jsIndex, jsOr, jsTruthy, hl, h2]
  · intro h1 h2
    have hl : extensionMap.lookup ext = none := lookupEqNoneOfNotMem extensionMap ext h1
    simp [detectLanguageFromExtension, jsIndex, jsOr, jsTruthy, hl, h2]

/-- Witness for C8 at the concrete extensions "py" and "exe". -/
theorem c8_language_lookup_witness :
    detectLanguageFromExtension ("py") = JSVal.str ("python")
  ∧ detectLanguageFromExtension ("exe") = JSVal.nullish :=
  ⟨(c8_language_lookup ("py")).1 ("python") (by decide),
   (c8_language_lookup ("exe")).2.1 (by decide) (by decide)⟩

/-- Counterexample to C8 as stated: "constructor" is not a key of the
static table, yet `extensionMap['constructor'] || null` evaluates to the
truthy inherited `Object.prototype.constructor`, not `null`. -/
theorem c8_prototype_cex :
    ("constructor") ∉ extensionMap.map Prod.fst
  ∧ detectLanguageFromExtension ("constructor") = JSVal.protoMember ("constructor")
  ∧ detectLanguageFromExtension ("constructor") ≠ JSVal.nullish := by
  refine ⟨by decide, by decide, by decide⟩

/-- Claim C9: a filename with no `.` gets the empty extension from
`getFileExtension` (the `lastIndexOf - 1 >>> 0` idiom), and hence no
language is inferred.  The length bound reflects the 32-bit `>>> 0`
reduction; every JS engine keeps strings far below `2 ^ 32` characters. -/
theorem c9_extensionless : ∀ filename : String, ('.' : Char) ∉ filename.data →
    filename.data.length ≤ 4294967296 →
    getFileExtension filename = ("")
  ∧ detectLanguageFromExtension (getFileExtension filename) = JSVal.nullish := by
  intro f hdot hlen
  have h1 : getFileExtension f = ("") := by
    unfold getFileExtension
    rw [lastIdxOfNotMem '.' f.data hdot]
    have hst : (((-1 : Int) - 1) % 4294967296 + 2).toNat = 4294967296 := by decide
    rw [hst, List.drop_eq_nil_of_le hlen]
    rfl
  refine ⟨h1, ?_⟩
  rw [h1]
  decide

/-- Witness for C9 at the concrete filename "README". -/
theorem c9_extensionless_witness :
    getFileExtension ("README") = ("")
  ∧ detectLanguageFromExtension (getFileExtension ("README")) = JSVal.nullish :=
  c9_extensionless ("README") (by decide) (by decide)

/-- Claim C1 (refuting evaluation): the renderer emits siblings in their
input order.  The same sibling set — one file, one folder — renders to two
different strings depending on input order, while the claimed
folders-before-files sorting would make both renders identical. -/
theorem c1_renderer_order_bug :
    renderFileTree
      [Item.mk ("a.txt") ("/a.txt") ("file") [],
       Item.mk ("bdir") ("/bdir") ("dir") []]
  ≠ renderFileTree
      [Item.mk ("bdir") ("/bdir") ("dir") [],
       Item.mk ("a.txt") ("/a.txt") ("file") []] := by
  decide

/-- Every line retained by `dropHeader` is a line of the input. -/
theorem dropHeaderSubset (ls : List String) (l : String) (h : l ∈ dropHeader ls) :
    l ∈ ls := by
  cases ls with
  | nil => cases h
  | cons a rest =>
    simp only [dropHeader] at h
    by_cases hc : (trimData a.data == headerMarker) = true
    · rw [if_pos hc] at h
      exact List.mem_cons_of_mem a h
    · rw [if_neg hc] at h
      exact h

/-- Claim C5: the renderer turns the empty sequence into the explicit
"no files" placeholder, and an input none of whose lines is recognizable
parses to the empty root sequence and hence also renders to the
placeholder. -/
theorem c5_empty_placeholder :
    renderFileTree [] =
      ("<div class=\"file-tree-placeholder\">No files found in repository.</div>")
  ∧ ∀ ls : List String, (∀ l ∈ ls, lineEntry l = none) →
      renderFileTree (nodesToItems (parseFromLines ls)) =
        ("<div class=\"file-tree-placeholder\">No files found in repository.</div>") := by
  constructor
  · rfl
  · intro ls h
    have hfm : (dropHeader ls).filterMap lineEntry = [] :=
      List.filterMap_eq_nil_iff.mpr (fun a ha => h a (dropHeaderSubset ls a ha))
    have hp : parseFromLines ls = [] := by
      unfold parseFromLines
      rw [hfm]
      rfl
    rw [hp]
    rfl

/-- Witness for C5 on a concrete unrecognizable input (a blank line, a
whitespace line and a sentinel line). -/
theorem c5_empty_placeholder_witness :
    renderFileTree (nodesToItems (parseFromLines
        [(""), ("   "), ("  (more files not shown)")])) =
      ("<div class=\"file-tree-placeholder\">No files found in repository.</div>") :=
  c5_empty_placeholder.2 [(""), ("   "), ("  (more files not shown)")] (by decide)

/-- `splitChar` never produces the empty list of components. -/
theorem splitCharNeNil (c : Char) (l : List Char) : splitChar c l ≠ [] := by
  cases l with
  | nil => simp [splitChar]
  | cons x xs =>
    cases hs : splitChar c xs with
    | nil => simp [splitChar, hs]
    | cons y ys =>
      simp only [splitChar, hs]
      by_cases hx : x = c
      · simp [hx]
      · simp [hx]

/-- Splitting at a character that does not occur yields the whole list as
the single component. -/
theorem splitCharNotMem (c : Char) (l : List Char) (h : c ∉ l) :
    splitChar c l = [l] := by
  induction l with
  | nil => rfl
  | cons x xs ih =>
    simp only [List.mem_cons, not_or] at h
    have hxs := ih h.2
    have hx : ¬(x = c) := fun he => h.1 he.symm
    simp [splitChar, hxs, hx]

/-- A singleton split result forces the separator to be absent. -/
theorem splitCharSingle (c : Char) (l m : List Char) (h : splitChar c l = [m]) :
    m = l ∧ c ∉ l := by
  induction l generalizing m with
  | nil =>
    simp only [splitChar] at h
    injection h with h1 _
    exact ⟨h1.symm, List.not_mem_nil c⟩
  | cons x xs ih =>
    cases hs : splitChar c xs with
    | nil => exact absurd hs (splitCharNeNil c xs)
    | cons y ys =>
      simp only [splitChar, hs] at h
      by_cases hx : x = c
      · rw [if_pos hx] at h
        simp at h
      · rw [if_neg hx] at h
        injection h with h1 h2
        subst h2
        obtain ⟨hy, hnc⟩ := ih y hs
        subst hy
        refine ⟨h1.symm, ?_⟩
        simp only [List.mem_cons, not_or]
        exact ⟨fun hcx => hx hcx.symm, hnc⟩

/-- The dot-free suffix of a dot-free list is the list itself. -/
theorem sufAfterLastNotMem (c : Char) (l : List Char) (h : c ∉ l) :
    sufAfterLast c l = l := by
  cases l with
  | nil => rfl
  | cons x xs =>
    simp only [List.mem_cons, not_or] at h
    have hx : ¬(x = c) := fun he => h.1 he.symm
    simp [sufAfterLast, h.2, hx]

/-- The last component of `split` is exactly the maximal separator-free
suffix — the "suffix after the last separator". -/
theorem lastOrSplitChar (c : Char) (l : List Char) :
    lastOr (splitChar c l) = sufAfterLast c l := by
  induction l with
  | nil => rfl
  | cons x xs ih =>
    cases hs : splitChar c xs with
    | nil => exact absurd hs (splitCharNeNil c xs)
    | cons y ys =>
      simp only [splitChar, hs]
      by_cases hx : x = c
      · rw [if_pos hx]
        have hl : lastOr ([] :: y :: ys) = lastOr (y :: ys) := rfl
        rw [hl, ← hs, ih]
        by_cases hm : c ∈ xs
        · simp [sufAfterLast, hm, hx]
        · simp [sufAfterLast, hm, hx, sufAfterLastNotMem c xs hm]
      · rw [if_neg hx]
        cases ys with
        | nil =>
          obtain ⟨hy, hnc⟩ := splitCharSingle c xs y hs
          subst hy
          simp [lastOr, sufAfterLast, hnc, hx]
        | cons z zs =>
          have h1 : lastOr ((x :: y) :: z :: zs) = lastOr (z :: zs) := rfl
          have h2 : lastOr (y :: z :: zs) = lastOr (z :: zs) := rfl
          have hm : c ∈ xs := by
            by_contra hnc
            rw [splitCharNotMem c xs hnc] at hs
            injection hs with hs1 hs2
            exact List.noConfusion hs2
          rw [h1, ← h2, ← hs, ih]
          simp [sufAfterLast, hm]

/-- Claim C7 (amended): `getFileIconClass` is total and computes
`iconMap[ext] || 'text'` for `ext` the lower-cased suffix after the last
`.`: a table key yields its category, an extension that is neither a
table key nor an `Object.prototype` property name yields the generic
"text" category, and an `Object.prototype` property name yields the
truthy inherited member instead of the default. -/
theorem c7_icon_class_total : ∀ (fileName ext : String),
    ext = String.mk ((sufAfterLast '.' fileName.data).map Char.toLower) →
    (∀ v : String, iconClassMap.lookup ext = some v →
      getFileIconClass fileName = JSVal.str v)
  ∧ (iconClassMap.lookup ext = none → ext ∉ protoKeys →
      getFileIconClass fileName = JSVal.str ("text"))
  ∧ (iconClassMap.lookup ext = none → ext ∈ protoKeys →
      getFileIconClass fileName = JSVal.protoMember ext) := by
  intro f ext hext
  have hdef : getFileIconClass f =
      jsOr (jsIndex iconClassMap ext) (JSVal.str ("text")) := by
    unfold getFileIconClass
    rw [lastOrSplitChar, ← hext]
  refine ⟨?_, ?_, ?_⟩
  · intro v hl
    have hmem : (ext, v) ∈ iconClassMap := memOfLookupEqSome iconClassMap ext v hl
    have hall : ∀ p ∈ iconClassMap, p.2.isEmpty = false := by decide
    have hne := hall (ext, v) hmem
    rw [hdef]
    simp [jsIndex, jsOr, jsTruthy, hl, hne]
  · intro hl hp
    rw [hdef]
    simp [jsIndex, jsOr, jsTruthy, hl, hp]
  · intro hl hp
    rw [hdef]
    simp [jsIndex, jsOr, jsTruthy, hl, hp]

/-- Witness for C7 at the concrete known extension "py" and unknown
extension "zip". -/
theorem c7_icon_class_total_witness :
    getFileIconClass ("a.py") = JSVal.str ("python")
  ∧ getFileIconClass ("archive.zip") = JSVal.str ("text") :=
  ⟨(c7_icon_class_total ("a.py") ("py") (by decide)).1 ("python") (by decide),
   (c7_icon_class_total ("archive.zip") ("zip") (by decide)).2.1 (by decide) (by decide)⟩

/-- Counterexample to C7 as stated: "constructor" is not a key of the
static table, yet the lookup inherits the truthy
`Object.prototype.constructor`, so the `|| 'text'` default does not fire
and the function does not return the generic "text" category. -/
theorem c7_prototype_cex :
    ("constructor") ∉ iconClassMap.map Prod.fst
  ∧ getFileIconClass ("x.constructor") = JSVal.protoMember ("constructor")
  ∧ getFileIconClass ("x.constructor") ≠ JSVal.str ("text") := by
  refine ⟨by decide, by decide, by decide⟩

/-- A line whose trimmed content contains the sentinel marker is dropped by
line classification. -/
theorem lineEntrySentinelNone (s : String)
    (h : containsSub moreFilesMarker (trimData s.data) = true) :
    lineEntry s = none := by
  simp only [lineEntry]
  by_cases he : (trimData s.data).isEmpty
  · simp [he]
  · simp [he, h]

/-- Claim C4 (amended): removing a "more files" sentinel line that is not
the first line of the input leaves the parse unchanged — the sentinel
contributes no node and does not disturb the indentation stack.  (When the
sentinel is the very first line its removal can change which line is
header-checked, see the counterexample.) -/
theorem c4_sentinel_skipped : ∀ (l₀ : String) (ls₁ ls₂ : List String) (s : String),
    containsSub moreFilesMarker (trimData s.data) = true →
    parseFromLines ((l₀ :: ls₁) ++ s :: ls₂) = parseFromLines ((l₀ :: ls₁) ++ ls₂) := by
  intro l₀ ls₁ ls₂ s hs
  have hnone := lineEntrySentinelNone s hs
  have key : List.filterMap lineEntry (dropHeader ((l₀ :: ls₁) ++ s :: ls₂)) =
      List.filterMap lineEntry (dropHeader ((l₀ :: ls₁) ++ ls₂)) := by
    simp only [List.cons_append, dropHeader]
    by_cases hc : (trimData l₀.data == headerMarker) = true
    · rw [if_pos hc, if_pos hc]
      simp [List.filterMap_append, List.filterMap_cons, hnone]
    · rw [if_neg hc, if_neg hc]
      simp [List.filterMap_cons, List.filterMap_append, hnone]
  unfold parseFromLines
  rw [key]

/-- Witness for C4 on a concrete listing with a sentinel between two real
lines. -/
theorem c4_sentinel_skipped_witness :
    parseFromLines [("src/"), ("  (more files not shown)"), ("  app.py")] =
      parseFromLines [("src/"), ("  app.py")] :=
  c4_sentinel_skipped ("src/") [] [("  app.py")] ("  (more files not shown)") (by decide)

/-- Counterexample to C4 as stated: when the sentinel is the first line,
removing it promotes the next line into header position; here the second
line is the literal header, so the two parses differ (the original input
parses it as a file, the reduced input discards it as the header). -/
theorem c4_sentinel_first_line_cex :
    parseFileStructure ("(more files)\nRepository structure:")
  ≠ parseFileStructure ("Repository structure:") := by
  intro h
  have hlen := congrArg List.length h
  exact absurd hlen (by decide)

/-- Claim C10: `renderFileItem` splices the node's `path` and `name` into
the markup verbatim — the output decomposes around the unmodified,
unescaped field values. -/
theorem c10_render_verbatim : ∀ item : Item, ∃ a b c : String,
    renderFileItem item = a ++ item.path ++ b ++ item.name ++ c := by
  intro item
  obtain ⟨nm, pth, ty, cs⟩ := item
  refine ⟨("\n            <div class=\"file-item ") ++
      (if ty == ("dir") then ("folder") else ("file")) ++ ("\" data-path=\""),
    ("\" data-type=\"") ++ ty ++ ("\">\n                ") ++
      (if ty == ("dir") && !cs.isEmpty then ("<span class=\"folder-toggle\"></span>")
       else ("<span class=\"folder-toggle\" style=\"visibility: hidden;\"></span>")) ++
      ("\n                <span class=\"file-icon ") ++ jsToString (getFileIconClass nm) ++
      ("\">\n                    <i class=\"fas ") ++
      (if ty == ("dir") then ("fa-folder") else jsToString (getFileIcon nm)) ++
      ("\"></i>\n                </span>\n                <span class=\"file-name\">"),
    ("</span>\n            </div>\n            ") ++
      (if !cs.isEmpty then
        ("<div class=\"file-children collapsed\">") ++ renderItems cs ++ ("</div>")
       else ("")) ++ ("\n        "), ?_⟩
  simp only [renderFileItem]
  simp [String.append_assoc]

/-- Strings with equal character data are equal. -/
theorem strDataInj (a b : String) (h : a.data = b.data) : a = b := by
  cases a
  cases b
  exact congrArg String.mk h

/-- Splitting a concatenation at the first separator: if neither head block
contains the separator, the blocks and the tails agree. -/
theorem slashSplit : ∀ (x y r1 r2 : List Char),
    ('/' : Char) ∉ x → ('/' : Char) ∉ y →
    x ++ '/' :: r1 = y ++ '/' :: r2 → x = y ∧ r1 = r2 := by
  intro x
  induction x with
  | nil =>
    intro y r1 r2 _ hy h
    cases y with
    | nil =>
      simp only [List.nil_append] at h
      injection h with _ h2
      exact ⟨rfl, h2⟩
    | cons b bs =>
      simp only [List.nil_append, List.cons_append] at h
      injection h with h1 _
      exact absurd (List.mem_cons.mpr (Or.inl h1)) hy
  | cons a as ih =>
    intro y r1 r2 hx hy h
    cases y with
    | nil =>
      simp only [List.cons_append, List.nil_append] at h
      injection h with h1 _
      exact absurd (List.mem_cons.mpr (Or.inl h1.symm)) hx
    | cons b bs =>
      simp only [List.cons_append] at h
      injection h with h1 h2
      subst h1
      simp only [List.mem_cons, not_or] at hx hy
      obtain ⟨he, hr⟩ := ih bs r1 r2 hx.2 hy.2 h2
      exact ⟨by rw [he], hr⟩

/-- `joinSlash` is injective on nonempty lists of separator-free blocks. -/
theorem joinSlashInj : ∀ (l1 l2 : List (List Char)),
    l1 ≠ [] → l2 ≠ [] →
    (∀ x ∈ l1, ('/' : Char) ∉ x) → (∀ x ∈ l2, ('/' : Char) ∉ x) →
    joinSlash l1 = joinSlash l2 → l1 = l2 := by
  intro l1
  induction l1 with
  | nil =>
    intro l2 h1
    exact absurd rfl h1
  | cons x xs ih =>
    intro l2 _ h2 hf1 hf2 h
    cases l2 with
    | nil => exact absurd rfl h2
    | cons y ys =>
      cases xs with
      | nil =>
        cases ys with
        | nil =>
          simp only [joinSlash] at h
          rw [h]
        | cons z zs =>
          simp only [joinSlash] at h
          have hmem : ('/' : Char) ∈ x := by
            rw [h]
            exact List.mem_append_right y (List.mem_cons_self _ _)
          exact absurd hmem (hf1 x (List.mem_cons_self _ _))
      | cons x2 xs2 =>
        cases ys with
        | nil =>
          simp only [joinSlash] at h
          have hmem : ('/' : Char) ∈ y := by
            rw [← h]
            exact List.mem_append_right x (List.mem_cons_self _ _)
          exact absurd hmem (hf2 y (List.mem_cons_self _ _))
        | cons y2 ys2 =>
          simp only [joinSlash] at h
          obtain ⟨hxy, hj⟩ := slashSplit x y _ _
            (hf1 x (List.mem_cons_self _ _)) (hf2 y (List.mem_cons_self _ _)) h
          have hrec := ih (y2 :: ys2) (by simp) (by simp)
            (fun z hz => hf1 z (List.mem_cons_of_mem x hz))
            (fun z hz => hf2 z (List.mem_cons_of_mem y hz)) hj
          rw [hxy, hrec]

/-- `mkPath` is injective when no component contains the separator. -/
theorem mkPathInj (pre pre' : List String) (n n' : String)
    (hn : ('/' : Char) ∉ n.data) (hpre : ∀ x ∈ pre, ('/' : Char) ∉ x.data)
    (hn' : ('/' : Char) ∉ n'.data) (hpre' : ∀ x ∈ pre', ('/' : Char) ∉ x.data)
    (h : mkPath pre n = mkPath pre' n') : pre = pre' ∧ n = n' := by
  have hj : joinSlash ((pre ++ [n]).map String.data) =
      joinSlash ((pre' ++ [n']).map String.data) := by
    have hcons : ('/' :: joinSlash ((pre ++ [n]).map String.data)) =
        ('/' :: joinSlash ((pre' ++ [n']).map String.data)) := congrArg String.data h
    exact (List.cons.inj hcons).2
  have hfree : ∀ (q : List String) (m : String), ('/' : Char) ∉ m.data →
      (∀ x ∈ q, ('/' : Char) ∉ x.data) →
      ∀ x ∈ (q ++ [m]).map String.data, ('/' : Char) ∉ x := by
    intro q m hm hq x hx
    obtain ⟨s, hs, rfl⟩ := List.mem_map.mp hx
    rcases List.mem_append.mp hs with hs | hs
    · exact hq s hs
    · have : s = m := List.mem_singleton.mp hs
      subst this
      exact hm
  have hlists := joinSlashInj _ _ (by simp) (by simp)
    (hfree pre n hn hpre) (hfree pre' n' hn' hpre') hj
  have hmap : pre ++ [n] = pre' ++ [n'] :=
    (List.map_injective_iff.mpr (fun a b hab => strDataInj a b hab)) hlists
  obtain ⟨hp, hsing⟩ := List.append_inj' hmap (by simp)
  injection hsing with h1 _
  exact ⟨hp, h1⟩

/-- `fileEntriesList` distributes over list append. -/
theorem fileEntriesListAppend (pre : List String) (a b : List Node) :
    fileEntriesList pre (a ++ b) = fileEntriesList pre a ++ fileEntriesList pre b := by
  induction a with
  | nil => rfl
  | cons c rest ih =>
    show fileEntriesNode pre c ++ fileEntriesList pre (rest ++ b) =
      (fileEntriesNode pre c ++ fileEntriesList pre rest) ++ fileEntriesList pre b
    rw [ih, List.append_assoc]

/-- Membership in the file entries of a reversed forest is membership in the
entries of the forest. -/
theorem memFileEntriesListReverse (pre : List String) (l : List Node)
    (e : List String × String × String) :
    e ∈ fileEntriesList pre l.reverse ↔ e ∈ fileEntriesList pre l := by
  induction l with
  | nil => exact Iff.rfl
  | cons c rest ih =>
    simp only [List.reverse_cons, fileEntriesListAppend, List.mem_append, ih,
      fileEntriesList, List.not_mem_nil]
    tauto

/-- The empty forest trivially satisfies the path property. -/
theorem pathsOkNil (pre : List String) : pathsOk pre [] := by
  intro e he
  simp only [fileEntriesList] at he
  cases he

/-- Path property of a forest headed by a file node. -/
theorem pathsOkConsFile (pre : List String) (n p : String) (rest : List Node) :
    pathsOk pre (Node.file n p :: rest) ↔ (p = mkPath pre n ∧ pathsOk pre rest) := by
  unfold pathsOk
  rw [show fileEntriesList pre (Node.file n p :: rest) =
      (pre, n, p) :: fileEntriesList pre rest from rfl]
  constructor
  · intro h
    refine ⟨?_, fun e he => h e (List.mem_cons_of_mem _ he)⟩
    exact h (pre, n, p) (List.mem_cons_self _ _)
  · rintro ⟨h1, h2⟩ e he
    rcases List.mem_cons.mp he with he | he
    · subst he
      exact h1
    · exact h2 e he

/-- Path property of a forest headed by a folder node. -/
theorem pathsOkConsFolder (pre : List String) (n : String) (cs rest : List Node) :
    pathsOk pre (Node.folder n cs :: rest) ↔
      (pathsOk (pre ++ [n]) cs ∧ pathsOk pre rest) := by
  unfold pathsOk
  rw [show fileEntriesList pre (Node.folder n cs :: rest) =
      fileEntriesList (pre ++ [n]) cs ++ fileEntriesList pre rest from rfl]
  constructor
  · intro h
    exact ⟨fun e he => h e (List.mem_append_left _ he),
           fun e he => h e (List.mem_append_right _ he)⟩
  · rintro ⟨h1, h2⟩ e he
    rcases List.mem_append.mp he with he | he
    · exact h1 e he
    · exact h2 e he

/-- The path property is stable under reversing the forest. -/
theorem pathsOkReverse (pre : List String) (l : List Node) :
    pathsOk pre l.reverse ↔ pathsOk pre l := by
  unfold pathsOk
  constructor
  · intro h e he
    exact h e ((memFileEntriesListReverse pre l e).mpr he)
  · intro h e he
    exact h e ((memFileEntriesListReverse pre l e).mp he)

/-- `stackNames` depends on a frame only through its name. -/
theorem stackNamesName (f g : Frame) (rest : List Frame) (h : f.name = g.name) :
    stackNames f rest = stackNames g rest := by
  cases rest with
  | nil => rfl
  | cons p r => simp [stackNames, h]

/-- Closing the top frame preserves the stack invariant. -/
theorem stackInvClose (top p : Frame) (rest : List Frame)
    (h : stackInv top (p :: rest)) : stackInv (closeFrame top p) rest := by
  simp only [stackInv, invTail] at h ⊢
  obtain ⟨htop, hp, htail⟩ := h
  refine ⟨?_, htail⟩
  have hn : stackNames (closeFrame top p) rest = stackNames p rest :=
    stackNamesName _ _ rest rfl
  rw [hn]
  show pathsOk (stackNames p rest) (Node.folder top.name top.acc.reverse :: p.acc)
  rw [pathsOkConsFolder]
  refine ⟨?_, hp⟩
  rw [pathsOkReverse]
  exact htop

/-- Popping frames preserves the stack invariant. -/
theorem stackInvPop (ind : Int) : ∀ (fs : List Frame) (top : Frame),
    stackInv top fs → stackInv (popWhile ind top fs).1 (popWhile ind top fs).2 := by
  intro fs
  induction fs with
  | nil =>
    intro top h
    simpa [popWhile] using h
  | cons p rest ih =>
    intro top h
    simp only [popWhile]
    by_cases hc : ind ≤ top.indent
    · rw [if_pos hc]
      exact ih (closeFrame top p) (stackInvClose top p rest h)
    · rw [if_neg hc]
      exact h

/-- One parser step preserves the stack invariant. -/
theorem stackInvStep (st : Frame × List Frame) (e : Int × String)
    (h : stackInv st.1 st.2) : stackInv (parseStep st e).1 (parseStep st e).2 := by
  obtain ⟨top, rest⟩ := st
  obtain ⟨ind, nm⟩ := e
  have hpop := stackInvPop ind rest top h
  cases hpw : popWhile ind top rest with
  | mk top' rest' =>
    rw [hpw] at hpop
    simp only [parseStep, hpw]
    by_cases hf : (nm.data.getLast? == some '/') = true
    · rw [if_pos hf]
      refine ⟨pathsOkNil _, ?_⟩
      exact hpop
    · rw [if_neg hf]
      obtain ⟨h1, h2⟩ := hpop
      refine ⟨?_, h2⟩
      have hn : stackNames
          (Frame.mk top'.name top'.indent
            (Node.file nm (mkPath (stackNames top' rest') nm) :: top'.acc)) rest' =
          stackNames top' rest' :=
        stackNamesName _ _ _ rfl
      show pathsOk _ (Node.file nm (mkPath (stackNames top' rest') nm) :: top'.acc)
      rw [hn, pathsOkConsFile]
      exact ⟨rfl, h1⟩

/-- Folding the parser steps preserves the stack invariant. -/
theorem stackInvFold : ∀ (entries : List (Int × String)) (st : Frame × List Frame),
    stackInv st.1 st.2 →
    stackInv (entries.foldl parseStep st).1 (entries.foldl parseStep st).2 := by
  intro entries
  induction entries with
  | nil =>
    intro st h
    simpa using h
  | cons e es ih =>
    intro st h
    rw [List.foldl_cons]
    exact ih (parseStep st e) (stackInvStep st e h)

/-- Flushing an invariant-respecting stack yields a forest whose files all
carry the joined path. -/
theorem flushAllPathsOk : ∀ (rest : List Frame) (top : Frame),
    stackInv top rest → pathsOk [] (flushAll top rest) := by
  intro rest
  induction rest with
  | nil =>
    intro top h
    simp only [flushAll]
    rw [pathsOkReverse]
    exact h.1
  | cons p r ih =>
    intro top h
    simp only [flushAll]
    exact ih (closeFrame top p) (stackInvClose top p r h)

/-- Every parse result satisfies the path property at the root. -/
theorem parsePathsOk (ls : List String) : pathsOk [] (parseFromLines ls) := by
  unfold parseFromLines
  have hinit : stackInv initState.1 initState.2 := ⟨pathsOkNil _, trivial⟩
  have hf := stackInvFold ((dropHeader ls).filterMap lineEntry) initState hinit
  cases hres : ((dropHeader ls).filterMap lineEntry).foldl parseStep initState with
  | mk top rest =>
    rw [hres] at hf
    exact flushAllPathsOk rest top hf

/-- Claim C2 (amended): for every input text, every file in the parse
carries the path obtained by joining its enclosing folders' clean names and
its own clean name with a single leading separator; and the file paths of a
single parse are pairwise distinct provided no two files share both the
same enclosing-folder stack and clean name, and no involved clean name
contains the separator.  (Without those provisos distinctness fails, see
the counterexample.) -/
theorem c2_file_paths : ∀ s : String,
    (∀ e ∈ fileEntriesList [] (parseFileStructure s), e.2.2 = mkPath e.1 e.2.1)
  ∧ (((fileEntriesList [] (parseFileStructure s)).map (fun e => (e.1, e.2.1))).Nodup →
     (∀ e ∈ fileEntriesList [] (parseFileStructure s),
        ('/' : Char) ∉ e.2.1.data ∧ ∀ f ∈ e.1, ('/' : Char) ∉ f.data) →
     ((fileEntriesList [] (parseFileStructure s)).map (fun e => e.2.2)).Nodup) := by
  intro s
  have hpaths : ∀ e ∈ fileEntriesList [] (parseFileStructure s),
      e.2.2 = mkPath e.1 e.2.1 :=
    parsePathsOk (splitLines s)
  refine ⟨hpaths, fun hnd hsf => ?_⟩
  refine List.Nodup.map_on ?_ (List.Nodup.of_map (fun e => (e.1, e.2.1)) hnd)
  intro a ha b hb hab
  obtain ⟨ha1, ha2⟩ := hsf a ha
  obtain ⟨hb1, hb2⟩ := hsf b hb
  have hmk : mkPath a.1 a.2.1 = mkPath b.1 b.2.1 := by
    rw [← hpaths a ha, ← hpaths b hb]
    exact hab
  obtain ⟨hfst, hsnd⟩ := mkPathInj a.1 b.1 a.2.1 b.2.1 ha1 ha2 hb1 hb2 hmk
  obtain ⟨a1, a2, a3⟩ := a
  obtain ⟨b1, b2, b3⟩ := b
  simp only at hfst hsnd
  subst hfst
  subst hsnd
  have e1 : a3 = mkPath a1 a2 := hpaths (a1, a2, a3) ha
  have e2 : b3 = mkPath a1 a2 := hpaths (a1, a2, b3) hb
  rw [e1, e2]

/-- Counterexample to C2 as stated: the well-indented input of two
identical lines yields two files with the same path, so paths of a single
parse are not pairwise distinct in general. -/
theorem c2_duplicate_paths_cex :
    ((fileEntriesList [] (parseFileStructure ("a.txt\na.txt"))).map (fun e => e.2.2)) =
      [("/a.txt"), ("/a.txt")]
  ∧ ¬ ((fileEntriesList [] (parseFileStructure ("a.txt\na.txt"))).map
        (fun e => e.2.2)).Nodup := by
  constructor
  · decide
  · decide

/-- Witness for C2 on the specification's worked example. -/
theorem c2_file_paths_witness :
    ((fileEntriesList []
        (parseFileStructure
          ("Repository structure:\nsrc/\n  app.py\n  utils/\n    helpers.py\nREADME.md"))).map
      (fun e => e.2.2)).Nodup :=
  (c2_file_paths
      ("Repository structure:\nsrc/\n  app.py\n  utils/\n    helpers.py\nREADME.md")).2
    (by decide) (by decide)
